import Mathlib

/-!
Verification development for the Print_List repository (`src/main.js`).

The program's text processing is embedded shallowly: JavaScript strings are
modelled as `List Char`, the regular expressions of the parser are compiled
by hand into character-level matchers with the exact backtracking semantics
they have on the source patterns, and the DOM-measuring quadrant packer is
embedded with the measurement callback as an explicit function parameter
(the spec itself states the Packer contract this way) and pixel heights as
rationals.  Unicode NFKD normalisation is modelled as the identity on
characters outside the combining-mark range (all inputs considered here are
NFKD-inert), and `toLowerCase` as ASCII lowering.
-/

namespace PrintList

/-- JavaScript strings, modelled as lists of characters. -/
abbrev Str := List Char

/-- The character class `\s` of JavaScript regexes (also the set trimmed by
`String.trim`). -/
def isJsSpace (c : Char) : Bool :=
  c == ' ' || c == '\t' || c == '\n' || c == '\r' || c == '\x0b' || c == '\x0c' ||
  decide (c.toNat = 0xa0) || decide (c.toNat = 0x1680) ||
  (decide (0x2000 ≤ c.toNat) && decide (c.toNat ≤ 0x200a)) ||
  decide (c.toNat = 0x2028) || decide (c.toNat = 0x2029) ||
  decide (c.toNat = 0x202f) || decide (c.toNat = 0x205f) ||
  decide (c.toNat = 0x3000) || decide (c.toNat = 0xfeff)

/-- The character class `\w` of JavaScript regexes. -/
def isWordChar (c : Char) : Bool :=
  (decide ('a' ≤ c) && decide (c ≤ 'z')) ||
  (decide ('A' ≤ c) && decide (c ≤ 'Z')) ||
  (decide ('0' ≤ c) && decide (c ≤ '9')) ||
  c == '_'

/-- Helper for `src.split(/\r?\n/)`: accumulates the current line (reversed). -/
def splitLinesGo : Str → Str → List Str
  | cur, [] => [cur.reverse]
  | cur, c :: rest =>
    if c = '\n' then
      (match cur with
       | '\r' :: cs => cs.reverse
       | _ => cur.reverse) :: splitLinesGo [] rest
    else
      splitLinesGo (c :: cur) rest

/-- Embeds `src.split(/\r?\n/)` from `parseMarkdownList`. -/
def splitLines (s : Str) : List Str := splitLinesGo [] s

/-- Embeds `raw.replace(/\s+$/, '')`. -/
def stripTrailingWs (s : Str) : Str := (s.reverse.dropWhile isJsSpace).reverse

/-- JavaScript `String.trim()`. -/
def jsTrim (s : Str) : Str :=
  ((s.dropWhile isJsSpace).reverse.dropWhile isJsSpace).reverse

/-- The bullet class `[-*+]` of the list regexes. -/
def isBulletChar (c : Char) : Bool := c == '-' || c == '*' || c == '+'

/-- Embeds `re.atx = /^\s*(#{1,6})\s+(.*)\s*$/` applied to a line with trailing
whitespace already stripped; returns the heading level and `mAtx[2].trim()`.
A run of more than six `#` cannot match (after backtracking the character
following the matched hashes is another `#`, never whitespace). -/
def matchAtx (line : Str) : Option (Nat × Str) :=
  let rest := line.dropWhile isJsSpace
  let k := (rest.takeWhile (fun c => c == '#')).length
  let after := rest.drop k
  if 1 ≤ k ∧ k ≤ 6 then
    match after with
    | c :: _ => if isJsSpace c then some (k, jsTrim (after.dropWhile isJsSpace)) else none
    | [] => none
  else none

/-- Embeds `re.mdChecked = /^\s*[-*+]\s*\[[xX]\]\s+(.*)$/`; returns the capture. -/
def matchMdChecked (line : Str) : Option Str :=
  match line.dropWhile isJsSpace with
  | b :: r1 =>
    if isBulletChar b then
      match r1.dropWhile isJsSpace with
      | '[' :: m :: ']' :: r5 =>
        if m == 'x' || m == 'X' then
          match r5 with
          | c :: _ => if isJsSpace c then some (r5.dropWhile isJsSpace) else none
          | [] => none
        else none
      | _ => none
    else none
  | [] => none

/-- Embeds `re.mdUnchecked = /^\s*[-*+]\s*\[\s\]\s+(.*)$/`; returns the capture. -/
def matchMdUnchecked (line : Str) : Option Str :=
  match line.dropWhile isJsSpace with
  | b :: r1 =>
    if isBulletChar b then
      match r1.dropWhile isJsSpace with
      | '[' :: m :: ']' :: r5 =>
        if isJsSpace m then
          match r5 with
          | c :: _ => if isJsSpace c then some (r5.dropWhile isJsSpace) else none
          | [] => none
        else none
      | _ => none
    else none
  | [] => none

/-- The custom glyph patterns `/^\s*✓\s+(.*)$/` and `/^\s*◦\s+(.*)$/`,
parameterised by the glyph. -/
def matchGlyph (g : Char) (line : Str) : Option Str :=
  match line.dropWhile isJsSpace with
  | c :: r1 =>
    if c == g then
      match r1 with
      | d :: _ => if isJsSpace d then some (r1.dropWhile isJsSpace) else none
      | [] => none
    else none
  | [] => none

/-- Embeds `re.fallbackBullet = /^\s*[-*+]\s+(.*)$/`; returns the capture. -/
def matchFallbackBullet (line : Str) : Option Str :=
  match line.dropWhile isJsSpace with
  | b :: r1 =>
    if isBulletChar b then
      match r1 with
      | c :: _ => if isJsSpace c then some (r1.dropWhile isJsSpace) else none
      | [] => none
    else none
  | [] => none

/-- The item-pattern dispatch of `parseMarkdownList`, in source order:
mdChecked, mdUnchecked, yourChecked (`✓`), yourUnchecked (`◦`),
fallbackBullet.  Returns `(checked, capturedText)`. -/
def itemLineMatch (line : Str) : Option (Bool × Str) :=
  match matchMdChecked line with
  | some t => some (true, t)
  | none =>
    match matchMdUnchecked line with
    | some t => some (false, t)
    | none =>
      match matchGlyph '✓' line with
      | some t => some (true, t)
      | none =>
        match matchGlyph '◦' line with
        | some t => some (false, t)
        | none =>
          match matchFallbackBullet line with
          | some t => some (false, t)
          | none => none

/-- A section: `{name, items}`. -/
abbrev Sec := Str × List Str

/-- The mutable scan state of `parseMarkdownList`: the (nullable) title, the
sections already closed, and the current section.  The JavaScript `sections`
array is `closed ++ cur.toList` (the current section, once created, is always
the last element pushed). -/
structure PState where
  title : Option Str
  closed : List Sec
  cur : Option Sec
deriving DecidableEq

/-- JavaScript truthiness of the `title` variable (`!title`): `null` and the
empty string are falsy. -/
def titleFalsy : Option Str → Bool
  | none => true
  | some t => t.isEmpty

/-- Embeds `ensureSection(name)`: closes the current section and starts a new one
named `name.trim()`. -/
def ensureSection (st : PState) (name : Str) : PState :=
  { st with closed := st.closed ++ st.cur.toList, cur := some (jsTrim name, []) }

/-- Embeds `currentSection.items.push(text.trim())` (the trim is applied by the
caller). -/
def pushItem (st : PState) (t : Str) : PState :=
  { st with cur := match st.cur with
                   | some s => some (s.1, s.2 ++ [t])
                   | none => none }

/-- One iteration of the line loop of `parseMarkdownList`. -/
def processLine (st : PState) (raw : Str) : PState :=
  let line := stripTrailingWs raw
  if (jsTrim line).isEmpty then st
  else
    match matchAtx line with
    | some (lvl, text) =>
      if lvl = 1 ∧ titleFalsy st.title then { st with title := some text }
      else ensureSection st text
    | none =>
      match itemLineMatch line with
      | some (checked, text) =>
        let st1 := if st.cur.isNone then ensureSection st (("Items").toList) else st
        if checked then st1 else pushItem st1 (jsTrim text)
      | none =>
        if titleFalsy st.title then { st with title := some (jsTrim line) }
        else ensureSection st (jsTrim line)

/-- Embeds `title || 'List'` at the end of `parseMarkdownList`. -/
def finalTitle : Option Str → Str
  | some t => if t.isEmpty then ("List").toList else t
  | none => ("List").toList

/-- The scan state after folding `processLine` over all lines. -/
def scanState (src : Str) : PState := (splitLines src).foldl processLine ⟨none, [], none⟩

/-- Embeds `parseMarkdownList(src)`: returns `(title, sections)` with empty sections
filtered out (`sections.filter(s => s.items.length > 0)`).  Total by
construction: every input string yields a model. -/
def parseMarkdownList (src : Str) : Str × List Sec :=
  let st := scanState src
  (finalTitle st.title, (st.closed ++ st.cur.toList).filter (fun s => !s.2.isEmpty))

/-- All items of the scan state, flattened in source order. -/
def itemsFlat (st : PState) : List Str :=
  ((st.closed ++ st.cur.toList).map (fun s => s.2)).flatten

/-! ## Text Normalizer (second, current version of `main.js`) -/

/-- Scanner for `replace(/\([^()]*\)/g, '')`: `buf` buffers the characters of
a pending `(`-group (reversed, `(` included).  A `)` closes and deletes the
group; a new `(` flushes the pending buffer (no match could start inside it,
since it contains no parentheses) and opens a new group. -/
def rpGo : Option Str → Str → Str
  | none, [] => []
  | some buf, [] => buf.reverse
  | none, c :: rest =>
    if c = '(' then rpGo (some ['(']) rest else c :: rpGo none rest
  | some buf, c :: rest =>
    if c = ')' then rpGo none rest
    else if c = '(' then buf.reverse ++ rpGo (some ['(']) rest
    else rpGo (some (c :: buf)) rest

/-- Step 1 of `normalize`: remove non-nested `(...)` blocks. -/
def removeParens (s : Str) : Str := rpGo none s

/-- Step 2 of `normalize`: `toLowerCase()`, modelled on the ASCII range. -/
def jsToLower (c : Char) : Char :=
  if decide ('A' ≤ c) && decide (c ≤ 'Z') then Char.ofNat (c.toNat + 32) else c

/-- Step 3 of `normalize`: `.normalize('NFKD').replace(/[̀-ͯ]/g, '')`.
NFKD is modelled as the identity on NFKD-inert characters (which covers all
inputs appearing in this development); the combining marks U+0300–U+036F are
removed. -/
def stripMark (c : Char) : Str :=
  if decide (0x300 ≤ c.toNat) && decide (c.toNat ≤ 0x36f) then [] else [c]

def stripMarks (s : Str) : Str := s.flatMap stripMark

/-- The apostrophe class `['’]` of the possessive regexes. -/
def isApos (c : Char) : Bool := c == '\'' || decide (c.toNat = 0x2019)

/-- Embeds `replace(/['’]s\b/g, '')`: remove an apostrophe followed by `s` at a word
boundary (the next character, if any, is not a word character).  After a
removal the scan resumes after the removed `s`, as the global regex does. -/
def poss1 : Str → Str
  | [] => []
  | [c] => [c]
  | c :: d :: rest =>
    if isApos c && d == 's' && (match rest with
                                | e :: _ => !isWordChar e
                                | [] => true) then
      poss1 rest
    else c :: poss1 (d :: rest)

/-- Embeds `replace(/\b['’]\b/g, '')`: remove an apostrophe with a word character on
both sides (in the original string; after a removal the preceding character
for the next position is the removed apostrophe itself, hence `false`). -/
def poss2 : Bool → Str → Str
  | _, [] => []
  | prevW, c :: rest =>
    if isApos c && prevW && (match rest with
                             | d :: _ => isWordChar d
                             | [] => false) then
      poss2 false rest
    else c :: poss2 (isWordChar c) rest

/-- Step 4 of `normalize`: both possessive replacements, in source order. -/
def stripPossessives (s : Str) : Str := poss2 false (poss1 s)

/-- Embeds `replace(/[_/\\]/g, ' ')`. -/
def sepToSpace (c : Char) : Char :=
  if c == '_' || c == '/' || c == '\\' then ' ' else c

/-- Embeds `replace(/[^\w\s-]/g, ' ')`. -/
def punctToSpace (c : Char) : Char :=
  if isWordChar c || isJsSpace c || c == '-' then c else ' '

/-- Scanner for `replace(/\s+/g, sep)`: a run of whitespace becomes a single
`sep`. -/
def collapseGo (sep : Char) : Bool → Str → Str
  | _, [] => []
  | inRun, c :: rest =>
    if isJsSpace c then
      if inRun then collapseGo sep true rest else sep :: collapseGo sep true rest
    else c :: collapseGo sep false rest

/-- Embeds `replace(/\s+/g, ' ')`. -/
def collapseWs (s : Str) : Str := collapseGo ' ' false s

/-- Embeds `normalize(s)` (second version of `main.js`): remove `(...)` blocks,
lower-case, strip accents, strip possessives, unify separators, drop other
punctuation, collapse whitespace, trim. -/
def normalize (s : Str) : Str :=
  jsTrim (collapseWs ((((stripPossessives
    (stripMarks ((removeParens s).map jsToLower))).map sepToSpace)).map punctToSpace))

/-- The `COMMON_MODS` descriptor set (second version of `main.js`). -/
def COMMON_MODS : List Str :=
  [("green").toList, ("red").toList, ("yellow").toList, ("orange").toList,
   ("ripe").toList, ("unripe").toList, ("fresh").toList, ("frozen").toList,
   ("organic").toList, ("large").toList, ("small").toList, ("medium").toList,
   ("big").toList, ("mini").toList, ("bag").toList, ("box").toList,
   ("bottle").toList, ("jar").toList, ("pack").toList, ("pkg").toList,
   ("tin").toList, ("can").toList, ("carton").toList, ("case").toList,
   ("check").toList, ("note").toList, ("sale").toList, ("bulk").toList,
   ("family").toList, ("value").toList, ("bundle").toList]

/-- Embeds `text.split(sep)` for a single separator character (empty pieces kept,
as in JavaScript). -/
def splitOnCharGo (sep : Char) : Str → Str → List Str
  | cur, [] => [cur.reverse]
  | cur, c :: rest =>
    if c = sep then cur.reverse :: splitOnCharGo sep [] rest
    else splitOnCharGo sep (c :: cur) rest

def splitOnChar (sep : Char) (s : Str) : List Str := splitOnCharGo sep [] s

/-- Embeds `arr.join(' ')`. -/
def joinSpace : List Str → Str
  | [] => []
  | [w] => w
  | w :: ws => w ++ ' ' :: joinSpace ws

/-- Embeds `stripModifiers(text)` (second version): drop standalone `COMMON_MODS`
tokens; keep the original text if everything was stripped
(`kept.join(' ') || text`). -/
def stripModifiers (text : Str) : Str :=
  let words := (splitOnChar ' ' text).filter (fun w => !w.isEmpty)
  let kept := words.filter (fun w => !COMMON_MODS.contains w)
  if (joinSpace kept).isEmpty then text else joinSpace kept

/-- Embeds `/suf$/.test(w)` for a literal suffix. -/
def endsW (suf w : Str) : Bool := List.isPrefixOf suf.reverse w.reverse

/-- Embeds `singularizeWord(w)` (second version of `main.js`), rule for rule:
`-ies → -y`; `{-ches,-shes,-xes,-zes}`: drop `-es`; `-oes`:
`w.replace(/es$/, 'o')` (note: this keeps the stem's `o` and appends another
`o`); trailing `-s` dropped unless the word ends in `-ss` or `-us`. -/
def singularizeWord (w : Str) : Str :=
  if endsW (("ies").toList) w then w.take (w.length - 3) ++ [ 'y' ]
  else if endsW (("ches").toList) w || endsW (("shes").toList) w ||
          endsW (("xes").toList) w || endsW (("zes").toList) w then
    w.take (w.length - 2)
  else if endsW (("oes").toList) w then w.take (w.length - 2) ++ [ 'o' ]
  else if endsW (("s").toList) w &&
          !(endsW (("ss").toList) w || endsW (("us").toList) w) then
    w.take (w.length - 1)
  else w

/-- Embeds `toKey(s) = s.replace(/\s+/g, '_')`. -/
def toKey (s : Str) : Str := collapseGo '_' false s

/-! ## Icon Matcher (second, current version of `main.js`) -/

/-- The `SYNONYMS` object, as an association list. -/
abbrev Synonyms := List (Str × Str)

/-- Embeds `SYNONYMS[k]`. -/
def synLookup (syns : Synonyms) (k : Str) : Option Str :=
  (syns.find? (fun p => p.1 == k)).map (fun p => p.2)

/-- Embeds `SYNONYMS[k]` where the value must also be truthy (a present but empty
value falls through, exactly as `if (SYNONYMS[k])` does). -/
def lookupTruthy (syns : Synonyms) (k : Str) : Option Str :=
  match synLookup syns k with
  | some v => if v.isEmpty then none else some v
  | none => none

/-- Embeds `normalize(stripModifiers(normalize(rawText)))` — the cleaned text of
`pickIconKeySmart`. -/
def cleanedOf (raw : Str) : Str := normalize (stripModifiers (normalize raw))

/-- Embeds `cleaned.split(' ').filter(Boolean)`. -/
def pickWords (cleaned : Str) : List Str :=
  (splitOnChar ' ' cleaned).filter (fun w => !w.isEmpty)

/-- Embeds `words.map(singularizeWord)`. -/
def singularWordsOf (cleaned : Str) : List Str :=
  (pickWords cleaned).map singularizeWord

/-- Embeds `singularWords.join(' ')`. -/
def fullSingularOf (cleaned : Str) : Str := joinSpace (singularWordsOf cleaned)

/-- Embeds `arr.slice(-n)`. -/
def lastN (l : List Str) (n : Nat) : List Str := l.drop (l.length - n)

/-- The tail n-gram loop `for (let n = min(3, len); n >= 1; n--)`. -/
def tailLoop (syns : Synonyms) (sw : List Str) : Nat → Option Str
  | 0 => none
  | n + 1 =>
    let tail := joinSpace (lastN sw (n + 1))
    match lookupTruthy syns tail with
    | some v => some (toKey v)
    | none => if !tail.isEmpty then some (toKey tail) else tailLoop syns sw n

/-- Stage 4 of `pickIconKeySmart`: the very last singularized token. -/
def lastTok (syns : Synonyms) (sw : List Str) : Option Str :=
  match sw.getLast? with
  | some last =>
    (match lookupTruthy syns last with
     | some v => some (toKey v)
     | none => if !last.isEmpty then some (toKey last) else none)
  | none => none

/-- Stage 5 of `pickIconKeySmart`: scan all tokens in order. -/
def scanTokens (syns : Synonyms) : List Str → Option Str
  | [] => none
  | w :: rest =>
    match lookupTruthy syns w with
    | some v => some (toKey v)
    | none => if !w.isEmpty then some (toKey w) else scanTokens syns rest

/-- Embeds `pickIconKeySmart(rawText)` (second, whitelist-free version of
`main.js`): clean, then synonyms on the full phrase, then the full
singularized phrase directly, then tail n-grams, then last token, then any
token, else `null`. -/
def pickIconKeySmart (syns : Synonyms) (rawText : Str) : Option Str :=
  let cleaned := cleanedOf rawText
  if cleaned.isEmpty then none
  else
    let singularWords := singularWordsOf cleaned
    let fullSingular := joinSpace singularWords
    match lookupTruthy syns cleaned with
    | some v => some (toKey v)
    | none =>
      match lookupTruthy syns fullSingular with
      | some v => some (toKey v)
      | none =>
        if !fullSingular.isEmpty then some (toKey fullSingular)
        else
          match tailLoop syns singularWords (min 3 singularWords.length) with
          | some r => some r
          | none =>
            match lastTok syns singularWords with
            | some r => some r
            | none => scanTokens syns singularWords

/-! ## Quadrant Packer (`flowIntoQuadrants`)

The DOM measurement callback `measureSection` is an explicit function
parameter (the spec states the Packer contract this way), and the print
geometry (the four usable quadrant heights, the section gap and the
title-block height, all already converted to pixels) is a record.  Pixel
heights live in an arbitrary linear ordered ring `α` (the packing loop only
adds, subtracts and compares heights; the source computes with IEEE
doubles).  The packing loop itself is embedded statement for statement. -/

/-- A packed entry `{name, items}`. -/
abbrev Entry := Str × List Str

/-- A measurement function `measureSection(name, items) -> pixel height`. -/
abbrev Measure (α : Type) := Str → List Str → α

/-- The print geometry after all `mmToPx` conversions: `quadHeights` (the
four usable heights, leakage reductions already applied), `--section-gap` in
pixels, and the title block height in pixels. -/
structure Geom (α : Type) where
  quadHeights : List α
  sectionGapPx : α
  titlePx : α

variable {α : Type} [LinearOrderedRing α]

/-- Embeds `const order = [0,1,2,3]; q = order[step]`. -/
def order : List Nat := [0, 1, 2, 3]

def qOf (step : Nat) : Nat := order.getD step 0

/-- The mutable state of the packing loop.  `const epsilon = 1` appears
below as the ring literal `1`. -/
structure PackSt (α : Type) where
  res : List (List Entry)
  step : Nat
  usedH : α
  cnt : Nat
deriving DecidableEq

/-- Embeds `result[q].push(e)`. -/
def pushEntry (res : List (List Entry)) (q : Nat) (e : Entry) : List (List Entry) :=
  res.set q (res.getD q [] ++ [e])

/-- Embeds `advance()`: move to the next quadrant (capped at the fourth) and reset
the per-quadrant accumulators. -/
def advance (st : PackSt α) : PackSt α :=
  { st with step := min (st.step + 1) 3, usedH := 0, cnt := 0 }

/-- The continuation label: the first piece (`start === 0 && part === 1`)
keeps the section name, later pieces get the `" (cont.)"` suffix. -/
def sliceName (name : Str) (start part : Nat) : Str :=
  if start = 0 ∧ part = 1 then name else name ++ (" (cont.)").toList

/-- The fit bound of the binary search:
`measure(nm, slice) + gap ≤ currH - usedH - epsilon` at candidate count `n`.
`gapQ` is `countInQuadrant > 0 ? sectionGapPx : 0`, fixed during the search. -/
def fitsSlice (μ : Measure α) (nm : Str) (items : List Str) (start : Nat)
    (gapQ currH usedH : α) (n : Nat) : Prop :=
  μ nm ((items.drop start).take n) + gapQ ≤ currH - usedH - 1

instance (μ : Measure α) (nm : Str) (items : List Str) (start : Nat)
    (gapQ currH usedH : α) (n : Nat) :
    Decidable (fitsSlice μ nm items start gapQ currH usedH n) := by
  unfold fitsSlice; infer_instance

/-- The binary search of the split path: largest slice count whose measured
height (plus the gap) fits.  `best` is `(bestN, bestPureH)`; `bestTotalH` of
the source is never read and is omitted.  The `fuel` only bounds the number
of iterations; with `fuel ≥ hi + 2 - lo` it never runs out (the interval
shrinks strictly every iteration). -/
def binSearch (μ : Measure α) (nm : Str) (items : List Str) (start : Nat)
    (gapQ currH usedH : α) : Nat → Nat → Nat → Nat × α → Nat × α
  | 0, _, _, best => best
  | fuel + 1, lo, hi, best =>
    if lo > hi then best
    else
      let mid := (lo + hi) / 2
      let pureH := μ nm ((items.drop start).take mid)
      if fitsSlice μ nm items start gapQ currH usedH mid then
        binSearch μ nm items start gapQ currH usedH fuel (mid + 1) hi (mid, pureH)
      else
        binSearch μ nm items start gapQ currH usedH fuel lo (mid - 1) best

/-- Embeds `quadHeights[q]` minus the title block when this is the first entry of
the first quadrant. -/
def currHeight (g : Geom α) (q : Nat) (cnt : Nat) : α :=
  g.quadHeights.getD q 0 - (if q = 0 ∧ cnt = 0 then g.titlePx else 0)

/-- One run of the split `while (start < section.items.length && step < 4)`
loop for a single section.  `fuel ≥ (items.length - start) + (4 - st.step)`
suffices: every iteration either advances `start` by at least one emitted
item or advances the quadrant pointer towards its cap. -/
def splitLoop (μ : Measure α) (g : Geom α) (name : Str) (items : List Str) :
    Nat → PackSt α → Nat → Nat → PackSt α
  | 0, st, _, _ => st
  | fuel + 1, st, start, part =>
    if start < items.length ∧ st.step < 4 then
      let q := qOf st.step
      let currH := currHeight g q st.cnt
      let nm := sliceName name start part
      let gapQ := if st.cnt > 0 then g.sectionGapPx else 0
      let best := binSearch μ nm items start gapQ currH st.usedH
        (items.length - start + 1) 1 (items.length - start) (0, 0)
      if best.1 > 0 then
        let usedH1 := if st.cnt > 0 then st.usedH + g.sectionGapPx else st.usedH
        let st1 : PackSt α :=
          { st with res := pushEntry st.res q (nm, (items.drop start).take best.1),
                    usedH := usedH1 + best.2,
                    cnt := st.cnt + 1 }
        let start1 := start + best.1
        if start1 < items.length then
          if st.step ≥ 3 then st1
          else splitLoop μ g name items fuel (advance st1) start1 (part + 1)
        else st1
      else
        if st.step ≥ 3 then st
        else splitLoop μ g name items fuel (advance st) start part
    else st

/-- The `for (const section of sections)` loop: try the section whole, else
split it; after a split, `if (step >= 3 && usedH >= quadHeights[q]) break`. -/
def packLoop (μ : Measure α) (g : Geom α) : List Entry → PackSt α → PackSt α
  | [], st => st
  | sec :: rest, st =>
    let q := qOf st.step
    let h := μ sec.1 sec.2
    let gap := if st.cnt > 0 then g.sectionGapPx else 0
    let availableH := g.quadHeights.getD q 0 - st.usedH - 1 -
      (if q = 0 ∧ st.cnt = 0 then g.titlePx else 0)
    if h + gap ≤ availableH then
      let usedH1 := if st.cnt > 0 then st.usedH + g.sectionGapPx else st.usedH
      let st1 : PackSt α :=
        { st with res := pushEntry st.res q (sec.1, sec.2),
                  usedH := usedH1 + (h + gap - (if st.cnt > 0 then g.sectionGapPx else 0)),
                  cnt := st.cnt + 1 }
      packLoop μ g rest st1
    else
      let st1 := splitLoop μ g sec.1 sec.2 (sec.2.length + 4) st 0 1
      if st1.step ≥ 3 ∧ st1.usedH ≥ g.quadHeights.getD (qOf st1.step) 0 then st1
      else packLoop μ g rest st1

/-- The initial packing state: `result = [[],[],[],[]]`, first quadrant,
nothing used. -/
def initSt : PackSt α := ⟨[[], [], [], []], 0, 0, 0⟩

/-- Embeds `flowIntoQuadrants(sections)` with the measurement callback and geometry
made explicit. -/
def flowIntoQuadrants (μ : Measure α) (g : Geom α) (sections : List Entry) :
    List (List Entry) :=
  (packLoop μ g sections initSt).res

/-- All entries of a packing state in visiting order (TL, TR, BL, BR). -/
def flatEntries (st : PackSt α) : List Entry := st.res.flatten

/-- All items of a quadrant list in visiting order. -/
def flatItems (qs : List (List Entry)) : List Str :=
  (qs.flatten.map (fun e => e.2)).flatten

/-- The packing-state invariant: `result` has exactly four quadrant lists,
the visiting pointer is within range, and every quadrant after the current
one is still empty (entries are only ever pushed at the current quadrant and
the pointer never moves backwards). -/
def Inv (st : PackSt α) : Prop :=
  ∃ a b c d, st.res = [a, b, c, d] ∧ st.step ≤ 3 ∧
    (st.step < 1 → b = []) ∧ (st.step < 2 → c = []) ∧ (st.step < 3 → d = [])

/-- A raw line that is blank after trailing-whitespace stripping, or that is
a checked item (of any of the two checked syntaxes) and not a heading. -/
def checkedOrBlankLine (raw : Str) : Prop :=
  (jsTrim (stripTrailingWs raw)).isEmpty = true ∨
  (matchAtx (stripTrailingWs raw) = none ∧
   ∃ t, itemLineMatch (stripTrailingWs raw) = some (true, t))

/-- All sections of the scan state (closed and current) have empty items. -/
def allSecsEmpty (st : PState) : Prop :=
  ∀ s ∈ st.closed ++ st.cur.toList, s.2 = ([] : List Str)

/-- The per-section relation of the content-preservation statement: the
pieces of a section carry at most its items, their items concatenate to a
prefix of exactly `pn.2` items, and every piece is named either by the
section name or by the continuation label. -/
def SecPieces (sec : Entry) (pn : List Entry × Nat) : Prop :=
  pn.2 ≤ sec.2.length ∧
  ((pn.1.map (fun e => e.2)).flatten = sec.2.take pn.2) ∧
  (∀ e ∈ pn.1, e.1 = sec.1 ∨ e.1 = sec.1 ++ (" (cont.)").toList)

/-- The unit-height measurement function used by the witnesses: every
rendered section is as many pixels tall as it has items. -/
def unitMeasure : Measure ℤ := fun _ its => (its.length : ℤ)

def c1Items : List Str :=
  [("a").toList, ("b").toList, ("c").toList, ("d").toList, ("e").toList]

/-- The concrete run for C4: section `A` holds one item 1000 pixels tall,
section `B` one item 10 pixels tall; every quadrant offers 100 usable
pixels, no section gap, no title block. -/
def c4Measure : Measure ℤ := fun _ items =>
  (items.map (fun w => if w = ("big").toList then (1000 : ℤ) else 10)).sum

def c4Geom : Geom ℤ := ⟨[100, 100, 100, 100], 0, 0⟩

def c4Sections : List Entry :=
  [(("A").toList, [("big").toList]), (("B").toList, [("small").toList])]

/-- The fourth-quadrant state used in the C4 witness: quadrant TL already
holds section `A`, the visiting pointer is on the fourth quadrant. -/
def c4St : PackSt ℤ :=
  ⟨[[((("A").toList), [("big").toList])], [], [], []], 3, 0, 0⟩

/-! ## Supporting lemmas -/

theorem joinSpace_cons_ne_nil (w : Str) (ws : List Str) (hw : w ≠ []) :
    joinSpace (w :: ws) ≠ [] := by
  cases ws with
  | nil => simpa [joinSpace] using hw
  | cons x xs =>
    simp only [joinSpace]
    intro h
    exact hw (List.append_eq_nil.mp h).1

/-! ## Claims -/

/-- C7: `singularizeWord` evaluated on the spec's concrete inputs, together
with the failing input of the `-oes` rule: the source's
`w.replace(/es$/, 'o')` turns `"tomatoes"` into `"tomatoo"`, contradicting
both the claimed `-oes → -o` rule and the code's own comment
`// tomatoes -> tomato`. -/
theorem c7_singularize_eval :
    singularizeWord (("tomatoes").toList) = ("tomatoo").toList ∧
    singularizeWord (("boxes").toList) = ("box").toList ∧
    singularizeWord (("hummus").toList) = ("hummus").toList ∧
    singularizeWord (("berries").toList) = ("berry").toList := by decide

/-- C3 counterexample: with the synonym table `{"bell pepper": "pepper"}`,
`pickIconKeySmart("2 bell peppers")` returns `"2_bell_pepper"`, not
`"pepper"`: the non-empty full singularized phrase is returned before any
tail n-gram is consulted. -/
theorem c3_counterexample :
    pickIconKeySmart [((("bell pepper").toList), (("pepper").toList))]
        (("2 bell peppers").toList) = some (("2_bell_pepper").toList) ∧
    pickIconKeySmart [((("bell pepper").toList), (("pepper").toList))]
        (("2 bell peppers").toList) ≠ some (("pepper").toList) := by decide

/-- C3 (amended): the whitelist-free matcher resolves both of the spec's
example items at the full-phrase direct stage: with
`{"bell pepper": "pepper"}`, `"2 bell peppers"` yields `"2_bell_pepper"`;
with no synonyms, `"Granny Smith Apples"` yields `"granny_smith_apple"`;
empty or whitespace-only input yields `null`. -/
theorem c3_amended :
    pickIconKeySmart [((("bell pepper").toList), (("pepper").toList))]
        (("2 bell peppers").toList) = some (("2_bell_pepper").toList) ∧
    pickIconKeySmart [] (("Granny Smith Apples").toList) =
        some (("granny_smith_apple").toList) ∧
    pickIconKeySmart [] (("").toList) = none ∧
    pickIconKeySmart [] (("   ").toList) = none := by decide

/-- C8: for every non-empty input, `stripModifiers` never returns the empty
string; it keeps exactly the non-descriptor tokens, and when every token is a
descriptor (or there are no tokens) the pre-strip text is returned
unchanged. -/
theorem c8_stripModifiers_nonempty (text : Str) (h : text ≠ []) :
    stripModifiers text ≠ [] ∧
    ((((splitOnChar ' ' text).filter (fun w => !w.isEmpty)).filter
        (fun w => !COMMON_MODS.contains w)) = [] → stripModifiers text = text) ∧
    (∀ k ks, (((splitOnChar ' ' text).filter (fun w => !w.isEmpty)).filter
        (fun w => !COMMON_MODS.contains w)) = k :: ks →
      stripModifiers text = joinSpace (k :: ks)) := by
  set kept := (((splitOnChar ' ' text).filter (fun w => !w.isEmpty)).filter
    (fun w => !COMMON_MODS.contains w)) with hkept
  have hmem : ∀ w ∈ kept, w ≠ [] := by
    intro w hw
    have hw1 : w ∈ (splitOnChar ' ' text).filter (fun w => !w.isEmpty) :=
      List.mem_of_mem_filter hw
    have := (List.mem_filter.mp hw1).2
    simpa [List.isEmpty_iff] using this
  have hsm : stripModifiers text =
      if (joinSpace kept).isEmpty then text else joinSpace kept := by
    simp only [stripModifiers, hkept]
  rcases hk : kept with _ | ⟨k, ks⟩
  · refine ⟨?_, fun _ => ?_, fun k ks hkk => by simp [hk] at hkk⟩
    · rw [hsm, hk]; simpa [joinSpace] using h
    · rw [hsm, hk]; simp [joinSpace]
  · have hkne : k ≠ [] := hmem k (by rw [hk]; exact List.mem_cons_self k ks)
    have hjoin : joinSpace (k :: ks) ≠ [] := joinSpace_cons_ne_nil k ks hkne
    have hres : stripModifiers text = joinSpace (k :: ks) := by
      rw [hsm, hk, if_neg (by simpa [List.isEmpty_iff] using hjoin)]
    exact ⟨hres ▸ hjoin, fun hnil => by simp [hk] at hnil,
      fun k' ks' hkk => hres.trans (congrArg joinSpace hkk)⟩

/-- C8 witness: concrete instances of `c8_stripModifiers_nonempty`. -/
theorem c8_witness :
    stripModifiers (("green").toList) ≠ [] ∧
    stripModifiers (("2 green apples").toList) ≠ [] :=
  ⟨(c8_stripModifiers_nonempty (("green").toList) (by decide)).1,
   (c8_stripModifiers_nonempty (("2 green apples").toList) (by decide)).1⟩

/-- C10 counterexample: the input `"s"` cleans to the non-empty text `"s"`
(and the empty synonym table has no key at all), yet `pickIconKeySmart`
returns `null` instead of the underscored full singularized phrase: the sole
token singularizes to the empty string, so every stage falls through. -/
theorem c10_counterexample :
    cleanedOf (("s").toList) = ("s").toList ∧
    cleanedOf (("s").toList) ≠ [] ∧
    pickIconKeySmart [] (("s").toList) = none := by decide

/-- C10 (amended): whenever the cleaned text is non-empty, its token-wise
singularization is also non-empty, and neither is a (truthily-valued)
synonym key, `pickIconKeySmart` returns the full singularized phrase with
whitespace replaced by underscores, never reaching the tail n-gram, last
token or token-scan stages; and cleaned-empty input always yields `null`
(the converse fails only in the degenerate case where the full
singularization is empty, e.g. the literal input `"s"`). -/
theorem c10_full_phrase :
    (∀ (syns : Synonyms) (raw : Str),
        cleanedOf raw ≠ [] →
        fullSingularOf (cleanedOf raw) ≠ [] →
        lookupTruthy syns (cleanedOf raw) = none →
        lookupTruthy syns (fullSingularOf (cleanedOf raw)) = none →
        pickIconKeySmart syns raw = some (toKey (fullSingularOf (cleanedOf raw)))) ∧
    (∀ (syns : Synonyms) (raw : Str),
        cleanedOf raw = [] → pickIconKeySmart syns raw = none) := by
  constructor
  · intro syns raw h1 h2 h3 h4
    simp only [pickIconKeySmart, fullSingularOf] at *
    rw [if_neg (by simpa [List.isEmpty_iff] using h1), h3, h4,
      if_pos (by simpa [List.isEmpty_iff] using h2)]
  · intro syns raw h1
    simp only [pickIconKeySmart]
    rw [if_pos (by simpa [List.isEmpty_iff] using h1)]

/-- C10 witness: a concrete instance of `c10_full_phrase`. -/
theorem c10_witness :
    pickIconKeySmart [] (("red apples").toList) = some (("apple").toList) := by
  have h := c10_full_phrase.1 [] (("red apples").toList)
    (by decide) (by decide) (by decide) (by decide)
  rw [h]; decide

/-! ### Parser lemmas -/

theorem itemsFlat_ensureSection (st : PState) (name : Str) :
    itemsFlat (ensureSection st name) = itemsFlat st := by
  simp [itemsFlat, ensureSection]

theorem itemsFlat_pushItem (st : PState) (t : Str) (n : Str) (its : List Str)
    (h : st.cur = some (n, its)) :
    itemsFlat (pushItem st t) = itemsFlat st ++ [t] := by
  simp [itemsFlat, pushItem, h]

/-- Unfolding `processLine` on a non-blank line that matches one of the item
patterns (and not the heading pattern). -/
theorem processLine_item (st : PState) (raw : Str) (checked : Bool) (text : Str)
    (h1 : (jsTrim (stripTrailingWs raw)).isEmpty = false)
    (h2 : matchAtx (stripTrailingWs raw) = none)
    (h3 : itemLineMatch (stripTrailingWs raw) = some (checked, text)) :
    processLine st raw =
      (if checked then (if st.cur.isNone then ensureSection st (("Items").toList) else st)
       else pushItem (if st.cur.isNone then ensureSection st (("Items").toList) else st)
         (jsTrim text)) := by
  simp only [processLine, h1, h2, h3, Bool.false_eq_true, if_false]

/-- Unfolding `processLine` on a non-blank heading line. -/
theorem processLine_atx (st : PState) (raw : Str) (lvl : Nat) (text : Str)
    (h1 : (jsTrim (stripTrailingWs raw)).isEmpty = false)
    (h2 : matchAtx (stripTrailingWs raw) = some (lvl, text)) :
    processLine st raw =
      (if lvl = 1 ∧ titleFalsy st.title then { st with title := some text }
       else ensureSection st text) := by
  simp only [processLine, h1, h2, Bool.false_eq_true, if_false]

theorem allSecsEmpty_ensureSection (st : PState) (name : Str)
    (hst : allSecsEmpty st) : allSecsEmpty (ensureSection st name) := by
  intro s hs
  simp only [ensureSection, List.append_assoc] at hs
  rcases List.mem_append.mp hs with hs1 | hs1
  · exact hst s (List.mem_append.mpr (Or.inl hs1))
  · rcases List.mem_append.mp hs1 with hs2 | hs2
    · exact hst s (List.mem_append.mpr (Or.inr hs2))
    · simp only [Option.toList_some, List.mem_singleton] at hs2
      rw [hs2]

theorem allSecsEmpty_processLine (st : PState) (raw : Str)
    (hline : checkedOrBlankLine raw) (hst : allSecsEmpty st) :
    allSecsEmpty (processLine st raw) := by
  rcases h : (jsTrim (stripTrailingWs raw)).isEmpty with _ | _
  · rcases hline with hb | ⟨hatx, t, hitem⟩
    · rw [h] at hb; exact absurd hb (by simp)
    · rw [processLine_item st raw true t h hatx hitem]
      rcases hcur : st.cur.isNone with _ | _
      · simpa [hcur] using hst
      · simpa [hcur] using allSecsEmpty_ensureSection st (("Items").toList) hst
  · simp only [processLine, h, if_true]
    exact hst

theorem allSecsEmpty_foldl (ls : List Str) (st : PState)
    (hls : ∀ l ∈ ls, checkedOrBlankLine l) (hst : allSecsEmpty st) :
    allSecsEmpty (ls.foldl processLine st) := by
  induction ls generalizing st with
  | nil => exact hst
  | cons l ls ih =>
    exact ih (processLine st l)
      (fun l' hl' => hls l' (List.mem_cons_of_mem l hl'))
      (allSecsEmpty_processLine st l (hls l (List.mem_cons_self l ls)) hst)

/-- C5: unchecked item lines are appended (trimmed) to the current section
in source order and checked item lines are discarded; concretely,
`"- [x] a\n- [ ] b"` parses to the single implicit section `Items` with
items exactly `["b"]`, and an input consisting solely of checked items (and
blank lines) produces zero sections. -/
theorem c5_checked_items_discarded :
    parseMarkdownList (("- [x] a\n- [ ] b").toList) =
      (("List").toList, [(("Items").toList, [("b").toList])]) ∧
    (∀ (st : PState) (raw text : Str),
        (jsTrim (stripTrailingWs raw)).isEmpty = false →
        matchAtx (stripTrailingWs raw) = none →
        itemLineMatch (stripTrailingWs raw) = some (false, text) →
        itemsFlat (processLine st raw) = itemsFlat st ++ [jsTrim text]) ∧
    (∀ (st : PState) (raw text : Str),
        (jsTrim (stripTrailingWs raw)).isEmpty = false →
        matchAtx (stripTrailingWs raw) = none →
        itemLineMatch (stripTrailingWs raw) = some (true, text) →
        itemsFlat (processLine st raw) = itemsFlat st) ∧
    (∀ src : Str, (∀ l ∈ splitLines src, checkedOrBlankLine l) →
        (parseMarkdownList src).2 = []) := by
  refine ⟨by decide, ?_, ?_, ?_⟩
  · intro st raw text h1 h2 h3
    rw [processLine_item st raw false text h1 h2 h3]
    simp only [Bool.false_eq_true, if_false]
    rcases hcur : st.cur with _ | ⟨n, its⟩
    · have hnone : st.cur.isNone = true := by rw [hcur]; rfl
      rw [if_pos (by simp [hnone])]
      rw [itemsFlat_pushItem (ensureSection st (("Items").toList)) (jsTrim text)
        (jsTrim (("Items").toList)) [] (by simp [ensureSection]),
        itemsFlat_ensureSection]
    · have hnone : st.cur.isNone = false := by rw [hcur]; rfl
      rw [if_neg (by simp [hnone])]
      exact itemsFlat_pushItem st (jsTrim text) n its hcur
  · intro st raw text h1 h2 h3
    rw [processLine_item st raw true text h1 h2 h3]
    rcases hcur : st.cur.isNone with _ | _
    · simp [hcur]
    · simp [hcur, itemsFlat_ensureSection]
  · intro src hsrc
    have hempty : allSecsEmpty (scanState src) :=
      allSecsEmpty_foldl (splitLines src) ⟨none, [], none⟩ hsrc
        (by intro s hs; simp at hs)
    simp only [parseMarkdownList]
    rw [List.filter_eq_nil_iff.mpr]
    intro s hs
    have := hempty s hs
    simp [this]

/-- C5 witness: concrete instances of the three conditional parts of
`c5_checked_items_discarded`. -/
theorem c5_witness :
    itemsFlat (processLine ⟨none, [], none⟩ (("- [ ] milk").toList)) =
      itemsFlat ⟨none, [], none⟩ ++ [("milk").toList] ∧
    itemsFlat (processLine ⟨none, [], none⟩ (("- [x] milk").toList)) =
      itemsFlat ⟨none, [], none⟩ ∧
    (parseMarkdownList (("- [x] a\n- [X] b").toList)).2 = [] := by
  refine ⟨?_, ?_, ?_⟩
  · exact c5_checked_items_discarded.2.1 ⟨none, [], none⟩ (("- [ ] milk").toList)
      (("milk").toList) (by decide) (by decide) (by decide)
  · exact c5_checked_items_discarded.2.2.1 ⟨none, [], none⟩ (("- [x] milk").toList)
      (("milk").toList) (by decide) (by decide) (by decide)
  · refine c5_checked_items_discarded.2.2.2 (("- [x] a\n- [X] b").toList) ?_
    intro l hl
    have hsplit : splitLines (("- [x] a\n- [X] b").toList) =
        [("- [x] a").toList, ("- [X] b").toList] := by decide
    rw [hsplit] at hl
    simp only [List.mem_cons, List.not_mem_nil, or_false] at hl
    rcases hl with h | h
    · rw [h]; exact Or.inr ⟨by decide, (("a").toList), by decide⟩
    · rw [h]; exact Or.inr ⟨by decide, (("b").toList), by decide⟩

/-- C6: parsing is total by construction (`parseMarkdownList` is a Lean
function defined on all of `Str`); every section of the result has at least
one item (zero-item sections are filtered out after the scan), and the title
defaults to `"List"` whenever the scan never set one (or set a falsy one). -/
theorem c6_parse_total :
    (∀ (src : Str) (s : Sec), s ∈ (parseMarkdownList src).2 → s.2 ≠ []) ∧
    (∀ src : Str, titleFalsy (scanState src).title = true →
        (parseMarkdownList src).1 = ("List").toList) := by
  constructor
  · intro src s hs
    simp only [parseMarkdownList] at hs
    have := (List.mem_filter.mp hs).2
    simpa [List.isEmpty_iff] using this
  · intro src htitle
    simp only [parseMarkdownList]
    rcases ht : (scanState src).title with _ | t
    · simp [finalTitle]
    · rw [ht] at htitle
      simp only [titleFalsy] at htitle
      simp [finalTitle, htitle]

/-- C6 witness: concrete instances of `c6_parse_total`. -/
theorem c6_witness :
    ((("Items").toList, [("a").toList]) : Sec).2 ≠ [] ∧
    (parseMarkdownList (("").toList)).1 = ("List").toList :=
  ⟨c6_parse_total.1 (("- a").toList) ((("Items").toList, [("a").toList]))
    (by decide),
   c6_parse_total.2 (("").toList) (by decide)⟩

/-- C9: a level-1 ATX heading becomes the title only when no (truthy) title
is set yet; any other heading starts a new section named by the trimmed
heading text; concretely `"# Title\n## Produce\n- apple"` yields title
`"Title"` and the single section `Produce` with items `["apple"]`. -/
theorem c9_atx_headings :
    parseMarkdownList (("# Title\n## Produce\n- apple").toList) =
      (("Title").toList, [(("Produce").toList, [("apple").toList])]) ∧
    (∀ (st : PState) (raw : Str) (lvl : Nat) (text : Str),
        (jsTrim (stripTrailingWs raw)).isEmpty = false →
        matchAtx (stripTrailingWs raw) = some (lvl, text) →
        processLine st raw =
          (if lvl = 1 ∧ titleFalsy st.title then { st with title := some text }
           else ensureSection st text)) :=
  ⟨by decide, processLine_atx⟩

/-- C9 witness: concrete instances of `c9_atx_headings`, one for the
title-setting branch and one for the section-starting branch. -/
theorem c9_witness :
    processLine ⟨none, [], none⟩ (("# Hi").toList) =
      (⟨some (("Hi").toList), [], none⟩ : PState) ∧
    processLine ⟨some (("T").toList), [], none⟩ (("## Sec").toList) =
      ensureSection ⟨some (("T").toList), [], none⟩ (("Sec").toList) := by
  constructor
  · rw [c9_atx_headings.2 ⟨none, [], none⟩ (("# Hi").toList) 1 (("Hi").toList)
      (by decide) (by decide)]
    decide
  · rw [c9_atx_headings.2 ⟨some (("T").toList), [], none⟩ (("## Sec").toList) 2
      (("Sec").toList) (by decide) (by decide)]
    decide

/-! ### Packer lemmas -/

theorem getD_four (a b c d : List Entry) (j : Nat) :
    ([a, b, c, d].getD j []) =
      if j = 0 then a else if j = 1 then b else if j = 2 then c
      else if j = 3 then d else [] := by
  match j with
  | 0 => rfl
  | 1 => rfl
  | 2 => rfl
  | 3 => rfl
  | n + 4 =>
    rw [List.getD_eq_default _ _ (by simp)]
    rw [if_neg (by omega), if_neg (by omega), if_neg (by omega), if_neg (by omega)]

theorem qOf_eq (step : Nat) (h : step ≤ 3) : qOf step = step := by
  match step, h with
  | 0, _ => rfl
  | 1, _ => rfl
  | 2, _ => rfl
  | 3, _ => rfl

theorem pushEntry_getD_ne (res : List (List Entry)) (q j : Nat) (e : Entry)
    (h : q ≠ j) : (pushEntry res q e).getD j [] = res.getD j [] := by
  unfold pushEntry
  rw [List.getD_eq_getElem?_getD, List.getElem?_set_ne h, ← List.getD_eq_getElem?_getD]

theorem pushEntry_getD_self (res : List (List Entry)) (q : Nat) (e : Entry)
    (h : q < res.length) :
    (pushEntry res q e).getD q [] = res.getD q [] ++ [e] := by
  unfold pushEntry
  rw [List.getD_eq_getElem?_getD, List.getElem?_set_self h]
  rfl

theorem pushEntry_flatten (a b c d : List Entry) (e : Entry) (step : Nat)
    (hstep : step ≤ 3) (hb : step < 1 → b = []) (hc : step < 2 → c = [])
    (hd : step < 3 → d = []) :
    (pushEntry [a, b, c, d] step e).flatten = [a, b, c, d].flatten ++ [e] := by
  match step, hstep with
  | 0, _ =>
    rw [hb (by omega), hc (by omega), hd (by omega)]
    simp [pushEntry]
  | 1, _ =>
    rw [hc (by omega), hd (by omega)]
    simp [pushEntry]
  | 2, _ =>
    rw [hd (by omega)]
    simp [pushEntry]
  | 3, _ => simp [pushEntry]

theorem pushEntry_shape (a b c d : List Entry) (e : Entry) (step : Nat)
    (hstep : step ≤ 3) :
    ∃ a' b' c' d', pushEntry [a, b, c, d] step e = [a', b', c', d'] ∧
      (step < 1 → b = [] → b' = []) ∧ (step < 2 → c = [] → c' = []) ∧
      (step < 3 → d = [] → d' = []) := by
  match step, hstep with
  | 0, _ => exact ⟨a ++ [e], b, c, d, by simp [pushEntry], fun _ h => h,
      fun _ h => h, fun _ h => h⟩
  | 1, _ => exact ⟨a, b ++ [e], c, d, by simp [pushEntry], fun h1 => by omega,
      fun _ h => h, fun _ h => h⟩
  | 2, _ => exact ⟨a, b, c ++ [e], d, by simp [pushEntry], fun h1 => by omega,
      fun h1 => by omega, fun _ h => h⟩
  | 3, _ => exact ⟨a, b, c, d ++ [e], by simp [pushEntry], fun h1 => by omega,
      fun h1 => by omega, fun h1 => by omega⟩

/-- The returned `bestN` never exceeds the initial `hi` (no monotonicity
needed). -/
theorem binSearch_fst_le (μ : Measure α) (nm : Str) (items : List Str)
    (start : Nat) (gapQ currH usedH : α) (B : Nat) :
    ∀ (fuel lo hi : Nat) (best : Nat × α), best.1 ≤ B → hi ≤ B →
      (binSearch μ nm items start gapQ currH usedH fuel lo hi best).1 ≤ B := by
  intro fuel
  induction fuel with
  | zero => intro lo hi best h1 h2; exact h1
  | succ fuel ih =>
    intro lo hi best h1 h2
    simp only [binSearch]
    split
    · exact h1
    · rename_i hlohi
      split
      · exact ih (((lo + hi) / 2) + 1) hi (((lo + hi) / 2),
          μ nm ((items.drop start).take ((lo + hi) / 2))) (by simp; omega) h2
      · exact ih lo (((lo + hi) / 2) - 1) best h1 (by omega)

/-- The binary-search loop invariant: provided the fit predicate is downward
closed (the monotone-measure assumption), the search returns the largest
fitting count in `[1, hi0]`, with `bestPureH` the measured height at that
count; `0` when no count fits. -/
theorem binSearch_max (μ : Measure α) (nm : Str) (items : List Str)
    (start : Nat) (gapQ currH usedH : α)
    (hdc : ∀ n m : Nat, n ≤ m →
        fitsSlice μ nm items start gapQ currH usedH m →
        fitsSlice μ nm items start gapQ currH usedH n)
    (hi0 : Nat) :
    ∀ (fuel lo hi : Nat) (best : Nat × α),
      hi + 1 - lo ≤ fuel → 1 ≤ lo → hi ≤ hi0 → best.1 < lo →
      (best.1 = 0 ∨ (1 ≤ best.1 ∧ best.1 ≤ hi0 ∧
        fitsSlice μ nm items start gapQ currH usedH best.1 ∧
        best.2 = μ nm ((items.drop start).take best.1))) →
      (∀ n, 1 ≤ n → n ≤ hi0 →
        fitsSlice μ nm items start gapQ currH usedH n →
        n ≤ best.1 ∨ (lo ≤ n ∧ n ≤ hi)) →
      ((binSearch μ nm items start gapQ currH usedH fuel lo hi best).1 = 0 ∨
        (1 ≤ (binSearch μ nm items start gapQ currH usedH fuel lo hi best).1 ∧
         (binSearch μ nm items start gapQ currH usedH fuel lo hi best).1 ≤ hi0 ∧
         fitsSlice μ nm items start gapQ currH usedH
           (binSearch μ nm items start gapQ currH usedH fuel lo hi best).1 ∧
         (binSearch μ nm items start gapQ currH usedH fuel lo hi best).2 =
           μ nm ((items.drop start).take
             (binSearch μ nm items start gapQ currH usedH fuel lo hi best).1))) ∧
      (∀ n, 1 ≤ n → n ≤ hi0 →
        fitsSlice μ nm items start gapQ currH usedH n →
        n ≤ (binSearch μ nm items start gapQ currH usedH fuel lo hi best).1) := by
  intro fuel
  induction fuel with
  | zero =>
    intro lo hi best hfuel hlo hhi hblo hbinv hmax
    refine ⟨hbinv, fun n h1 h2 h3 => ?_⟩
    rcases hmax n h1 h2 h3 with h | ⟨h4, h5⟩
    · exact h
    · omega
  | succ fuel ih =>
    intro lo hi best hfuel hlo hhi hblo hbinv hmax
    simp only [binSearch]
    split
    · rename_i hlohi
      refine ⟨hbinv, fun n h1 h2 h3 => ?_⟩
      rcases hmax n h1 h2 h3 with h | ⟨h4, h5⟩
      · exact h
      · omega
    · rename_i hlohi
      have hle : lo ≤ hi := by omega
      have hmidlo : lo ≤ (lo + hi) / 2 := by omega
      have hmidhi : (lo + hi) / 2 ≤ hi := by omega
      split
      · rename_i hfit
        refine ih (((lo + hi) / 2) + 1) hi
          (((lo + hi) / 2), μ nm ((items.drop start).take ((lo + hi) / 2)))
          (by omega) (by omega) hhi (by simp) ?_ ?_
        · exact Or.inr ⟨by omega, by omega, hfit, rfl⟩
        · intro n h1 h2 h3
          rcases hmax n h1 h2 h3 with h | ⟨h4, h5⟩
          · left; simp; omega
          · rcases Nat.lt_or_ge ((lo + hi) / 2) n with h6 | h6
            · right; omega
            · left; simpa using h6
      · rename_i hfit
        refine ih lo (((lo + hi) / 2) - 1) best (by omega) hlo (by omega)
          hblo hbinv ?_
        intro n h1 h2 h3
        rcases hmax n h1 h2 h3 with h | ⟨h4, h5⟩
        · exact Or.inl h
        · right
          refine ⟨h4, ?_⟩
          have hn : n < (lo + hi) / 2 := by
            rcases Nat.lt_or_ge n ((lo + hi) / 2) with h6 | h6
            · exact h6
            · exact absurd (hdc ((lo + hi) / 2) n h6 h3) hfit
          omega

theorem sliceName_pos (name : Str) (start part : Nat) (h : start ≠ 0) :
    sliceName name start part = name ++ (" (cont.)").toList := by
  simp [sliceName, h]

theorem advance_res (st : PackSt α) : (advance st).res = st.res := rfl

/-- Everything one run of the split loop does, stated relative to the
starting state: it appends a list `ps` of pieces to the flattened result,
whose items concatenate to a contiguous run `(items.drop start).take k` of
the remaining items; the invariant is preserved, the quadrant pointer never
moves backwards, quadrants before the current one are untouched, each
quadrant receives at most one new entry, the first emitted piece is named
`sliceName name start part` and all later pieces carry the continuation
suffix. -/
theorem splitLoop_spec (μ : Measure α) (g : Geom α) (name : Str)
    (items : List Str) :
    ∀ (fuel : Nat) (st : PackSt α) (start part : Nat),
      Inv st →
      items.length - start + (4 - st.step) ≤ fuel →
      ∃ ps k,
        (splitLoop μ g name items fuel st start part).res.flatten =
          st.res.flatten ++ ps ∧
        Inv (splitLoop μ g name items fuel st start part) ∧
        st.step ≤ (splitLoop μ g name items fuel st start part).step ∧
        k ≤ items.length - start ∧
        (ps.map (fun e => e.2)).flatten = (items.drop start).take k ∧
        (∀ j, j < st.step →
          (splitLoop μ g name items fuel st start part).res.getD j [] =
            st.res.getD j []) ∧
        (∀ j, ((splitLoop μ g name items fuel st start part).res.getD j []).length ≤
          (st.res.getD j []).length + 1) ∧
        (∀ e, ps.head? = some e → e.1 = sliceName name start part) ∧
        (∀ e ∈ ps.tail, e.1 = name ++ (" (cont.)").toList) := by
  intro fuel
  induction fuel with
  | zero =>
    intro st start part hInv hfuel
    exfalso
    obtain ⟨a, b, c, d, hres, hstep, _, _, _⟩ := hInv
    omega
  | succ fuel ih =>
    intro st start part hInv hfuel
    obtain ⟨a, b, c, d, hres, hstep, hb, hc, hd⟩ := hInv
    by_cases hcond : start < items.length ∧ st.step < 4
    · rw [splitLoop, if_pos hcond]
      have hq : qOf st.step = st.step := qOf_eq st.step hstep
      have hbest := binSearch_fst_le μ (sliceName name start part) items start
        (if st.cnt > 0 then g.sectionGapPx else 0)
        (currHeight g (qOf st.step) st.cnt) st.usedH (items.length - start)
        (items.length - start + 1) 1 (items.length - start) (0, 0)
        (by simp) (le_refl _)
      set best := binSearch μ (sliceName name start part) items start
        (if st.cnt > 0 then g.sectionGapPx else 0)
        (currHeight g (qOf st.step) st.cnt) st.usedH
        (items.length - start + 1) 1 (items.length - start) (0, 0) with hbestdef
      by_cases hpos : best.1 > 0
      · rw [if_pos hpos]
        -- the pushed piece
        set e : Entry := (sliceName name start part,
          (items.drop start).take best.1) with hedef
        have hflat1 : (pushEntry st.res (qOf st.step) e).flatten =
            st.res.flatten ++ [e] := by
          rw [hres, hq]
          exact pushEntry_flatten a b c d e st.step hstep hb hc hd
        obtain ⟨a', b', c', d', hres1, hb', hc', hd'⟩ :=
          pushEntry_shape a b c d e st.step hstep
        have hres1' : pushEntry st.res (qOf st.step) e = [a', b', c', d'] := by
          rw [hres, hq]; exact hres1
        have hInv1 : Inv ({ st with
            res := pushEntry st.res (qOf st.step) e,
            usedH := (if st.cnt > 0 then st.usedH + g.sectionGapPx else st.usedH) + best.2,
            cnt := st.cnt + 1 } : PackSt α) := by
          refine ⟨a', b', c', d', ?_, hstep, ?_, ?_, ?_⟩
          · exact hres1'
          · exact fun h => hb' h (hb h)
          · exact fun h => hc' h (hc h)
          · exact fun h => hd' h (hd h)
        have hgd_ne : ∀ j, j ≠ st.step →
            (pushEntry st.res (qOf st.step) e).getD j [] = st.res.getD j [] := by
          intro j hj
          rw [hq]
          exact pushEntry_getD_ne st.res st.step j e (fun h => hj h.symm)
        have hgd_self : (pushEntry st.res (qOf st.step) e).getD st.step [] =
            st.res.getD st.step [] ++ [e] := by
          rw [hq]
          exact pushEntry_getD_self st.res st.step e (by rw [hres]; simp; omega)
        by_cases hmore : start + best.1 < items.length
        · rw [if_pos hmore]
          by_cases hlast : st.step ≥ 3
          · rw [if_pos hlast]
            refine ⟨[e], best.1, hflat1, hInv1, le_refl _, by omega, ?_, ?_, ?_, ?_, ?_⟩
            · simp [hedef]
            · intro j hj
              exact hgd_ne j (by omega)
            · intro j
              by_cases hj : j = st.step
              · rw [hj, hgd_self]; simp
              · rw [hgd_ne j hj]; omega
            · intro e' he'
              simp only [List.head?_cons, Option.some.injEq] at he'
              rw [← he', hedef]
            · intro e' he'
              simp at he'
          · rw [if_neg hlast]
            -- recurse after advancing
            have hstep3 : st.step < 3 := by omega
            set st1 : PackSt α := { st with
              res := pushEntry st.res (qOf st.step) e,
              usedH := (if st.cnt > 0 then st.usedH + g.sectionGapPx else st.usedH) + best.2,
              cnt := st.cnt + 1 } with hst1def
            have hadvInv : Inv (advance st1) := by
              refine ⟨a', b', c', d', ?_, ?_, ?_, ?_, ?_⟩
              · rw [advance_res, hst1def]
                exact hres1'
              · simp only [advance]; omega
              · intro h; exact absurd h (by simp only [advance]; omega)
              · intro h
                simp [advance] at h
                exact hc' (by omega) (hc (by omega))
              · intro h
                simp [advance] at h
                exact hd' (by omega) (hd (by omega))
            have hadvstep : (advance st1).step = st.step + 1 := by
              simp [advance, hst1def]; omega
            obtain ⟨ps', k', hA, hB, hC, hD, hE, hF, hG, hH, hI⟩ :=
              ih (advance st1) (start + best.1) (part + 1) hadvInv
                (by rw [hadvstep]; omega)
            refine ⟨e :: ps', best.1 + k', ?_, hB, ?_, by omega, ?_, ?_, ?_, ?_, ?_⟩
            · rw [hA, advance_res, hst1def]
              simp only []
              rw [hflat1, List.append_assoc]
              rfl
            · have h5 : st.step ≤ (advance st1).step := by rw [hadvstep]; omega
              exact le_trans h5 hC
            · simp only [List.map_cons, List.flatten_cons, hedef, hE]
              have hdd : items.drop (start + best.1) =
                  (items.drop start).drop best.1 := by
                rw [List.drop_drop, Nat.add_comm]
              rw [hdd, List.take_add]
            · intro j hj
              rw [hF j (by omega), advance_res, hst1def]
              simp only []
              exact hgd_ne j (by omega)
            · intro j
              by_cases hj : j = st.step
              · rw [hF j (by rw [hadvstep]; omega), advance_res, hst1def]
                simp only []
                rw [hj, hgd_self]
                simp
              · calc ((splitLoop μ g name items fuel (advance st1)
                      (start + best.1) (part + 1)).res.getD j []).length
                    ≤ ((advance st1).res.getD j []).length + 1 := hG j
                  _ = (st.res.getD j []).length + 1 := by
                      rw [advance_res, hst1def]
                      simp only []
                      rw [hgd_ne j hj]
            · intro e' he'
              simp only [List.head?_cons, Option.some.injEq] at he'
              rw [← he', hedef]
            · intro e' he'
              simp only [List.tail_cons] at he'
              rcases ps' with _ | ⟨p0, ps''⟩
              · simp at he'
              · rcases List.mem_cons.mp he' with h | h
                · rw [h]
                  have := hH p0 (by simp)
                  rw [this, sliceName_pos name (start + best.1) (part + 1) (by omega)]
                · exact hI e' (by simpa using h)
        · rw [if_neg hmore]
          refine ⟨[e], best.1, hflat1, hInv1, le_refl _, by omega, ?_, ?_, ?_, ?_, ?_⟩
          · simp [hedef]
          · intro j hj
            exact hgd_ne j (by omega)
          · intro j
            by_cases hj : j = st.step
            · rw [hj, hgd_self]; simp
            · rw [hgd_ne j hj]; omega
          · intro e' he'
            simp only [List.head?_cons, Option.some.injEq] at he'
            rw [← he', hedef]
          · intro e' he'
            simp at he'
      · rw [if_neg hpos]
        by_cases hlast : st.step ≥ 3
        · rw [if_pos hlast]
          refine ⟨[], 0, by simp, ⟨a, b, c, d, hres, hstep, hb, hc, hd⟩,
            le_refl _, by omega, by simp, fun j _ => rfl, fun j => by omega,
            ?_, ?_⟩
          · intro e' he'; simp at he'
          · intro e' he'; simp at he'
        · rw [if_neg hlast]
          have hstep3 : st.step < 3 := by omega
          have hadvInv : Inv (advance st) := by
            refine ⟨a, b, c, d, hres, ?_, ?_, ?_, ?_⟩
            · simp only [advance]; omega
            · intro h; exact absurd h (by simp only [advance]; omega)
            · intro h; simp [advance] at h; exact hc (by omega)
            · intro h; simp [advance] at h; exact hd (by omega)
          have hadvstep : (advance st).step = st.step + 1 := by
            simp [advance]; omega
          obtain ⟨ps', k', hA, hB, hC, hD, hE, hF, hG, hH, hI⟩ :=
            ih (advance st) start part hadvInv (by rw [hadvstep]; omega)
          refine ⟨ps', k', ?_, hB, ?_, hD, hE, ?_, ?_, hH, hI⟩
          · rw [hA, advance_res]
          · rw [hadvstep] at hC; omega
          · intro j hj
            rw [hF j (by rw [hadvstep]; omega), advance_res]
          · intro j
            have := hG j
            rw [advance_res] at this
            exact this
    · rw [splitLoop, if_neg hcond]
      refine ⟨[], 0, by simp, ⟨a, b, c, d, hres, hstep, hb, hc, hd⟩,
        le_refl _, by omega, by simp, fun j _ => rfl, fun j => by omega, ?_, ?_⟩
      · intro e' he'; simp at he'
      · intro e' he'; simp at he'

/-- Unfolding of `packLoop` at a cons cell, with the `let`s of the source
inlined. -/
theorem packLoop_cons (μ : Measure α) (g : Geom α) (sec : Entry)
    (rest : List Entry) (st : PackSt α) :
    packLoop μ g (sec :: rest) st =
      (if μ sec.1 sec.2 + (if st.cnt > 0 then g.sectionGapPx else 0) ≤
          g.quadHeights.getD (qOf st.step) 0 - st.usedH - 1 -
            (if qOf st.step = 0 ∧ st.cnt = 0 then g.titlePx else 0) then
        packLoop μ g rest
          { st with res := pushEntry st.res (qOf st.step) (sec.1, sec.2),
                    usedH := (if st.cnt > 0 then st.usedH + g.sectionGapPx else st.usedH) +
                      (μ sec.1 sec.2 + (if st.cnt > 0 then g.sectionGapPx else 0) -
                        (if st.cnt > 0 then g.sectionGapPx else 0)),
                    cnt := st.cnt + 1 }
      else
        if (splitLoop μ g sec.1 sec.2 (sec.2.length + 4) st 0 1).step ≥ 3 ∧
            (splitLoop μ g sec.1 sec.2 (sec.2.length + 4) st 0 1).usedH ≥
              g.quadHeights.getD
                (qOf (splitLoop μ g sec.1 sec.2 (sec.2.length + 4) st 0 1).step) 0 then
          splitLoop μ g sec.1 sec.2 (sec.2.length + 4) st 0 1
        else packLoop μ g rest (splitLoop μ g sec.1 sec.2 (sec.2.length + 4) st 0 1)) :=
  rfl

theorem secPieces_dropped (rest : List Entry) :
    List.Forall₂ SecPieces rest (rest.map fun _ => (([] : List Entry), 0)) := by
  induction rest with
  | nil => exact List.Forall₂.nil
  | cons sec rest ih =>
    exact List.Forall₂.cons
      ⟨Nat.zero_le _, by simp [SecPieces], fun e he => by simp at he⟩ ih

theorem flatten_dropped (rest : List Entry) :
    (((rest.map fun _ => (([] : List Entry), 0)).map (fun pn => pn.1)).flatten :
      List Entry) = [] := by
  induction rest with
  | nil => rfl
  | cons sec rest ih => simp [ih]

/-- Everything the section loop does, relative to the starting state: the
processed sections contribute, in input order, consecutive blocks of pieces
satisfying `SecPieces`; the invariant holds, the quadrant pointer never
decreases, and quadrants before the starting one are untouched. -/
theorem packLoop_spec (μ : Measure α) (g : Geom α) :
    ∀ (secs : List Entry) (st : PackSt α),
      Inv st →
      ∃ pns : List (List Entry × Nat),
        List.Forall₂ SecPieces secs pns ∧
        (packLoop μ g secs st).res.flatten =
          st.res.flatten ++ ((pns.map (fun pn => pn.1)).flatten) ∧
        Inv (packLoop μ g secs st) ∧
        st.step ≤ (packLoop μ g secs st).step ∧
        (∀ j, j < st.step → (packLoop μ g secs st).res.getD j [] = st.res.getD j []) := by
  intro secs
  induction secs with
  | nil =>
    intro st hInv
    exact ⟨[], List.Forall₂.nil, by simp [packLoop], hInv, le_refl _, fun j _ => rfl⟩
  | cons sec rest ih =>
    intro st hInv
    obtain ⟨a, b, c, d, hres, hstep, hb, hc, hd⟩ := hInv
    rw [packLoop_cons]
    by_cases hfit : μ sec.1 sec.2 + (if st.cnt > 0 then g.sectionGapPx else 0) ≤
        g.quadHeights.getD (qOf st.step) 0 - st.usedH - 1 -
          (if qOf st.step = 0 ∧ st.cnt = 0 then g.titlePx else 0)
    · rw [if_pos hfit]
      have hq : qOf st.step = st.step := qOf_eq st.step hstep
      have hflat1 : (pushEntry st.res (qOf st.step) (sec.1, sec.2)).flatten =
          st.res.flatten ++ [(sec.1, sec.2)] := by
        rw [hres, hq]
        exact pushEntry_flatten a b c d (sec.1, sec.2) st.step hstep hb hc hd
      obtain ⟨a', b', c', d', hres1, hb', hc', hd'⟩ :=
        pushEntry_shape a b c d (sec.1, sec.2) st.step hstep
      have hInv1 : Inv ({ st with
                          res := pushEntry st.res (qOf st.step) (sec.1, sec.2),
                          usedH := (if st.cnt > 0 then st.usedH + g.sectionGapPx else st.usedH) +
                            (μ sec.1 sec.2 + (if st.cnt > 0 then g.sectionGapPx else 0) -
                              (if st.cnt > 0 then g.sectionGapPx else 0)),
                          cnt := st.cnt + 1 } : PackSt α) := by
        refine ⟨a', b', c', d', ?_, hstep, ?_, ?_, ?_⟩
        · rw [hres, hq]; exact hres1
        · exact fun h => hb' h (hb h)
        · exact fun h => hc' h (hc h)
        · exact fun h => hd' h (hd h)
      obtain ⟨pns', hP, hFlat, hInvOut, hStep, hUnch⟩ := ih _ hInv1
      refine ⟨([(sec.1, sec.2)], sec.2.length) :: pns', ?_, ?_, hInvOut, hStep, ?_⟩
      · refine List.Forall₂.cons ⟨le_refl _, ?_, ?_⟩ hP
        · simp
        · intro e he
          simp only [List.mem_singleton] at he
          rw [he]
          exact Or.inl rfl
      · rw [hFlat]
        simp only [List.map_cons, List.flatten_cons]
        rw [hflat1]
        simp [List.append_assoc]
      · intro j hj
        rw [hUnch j hj]
        simp only []
        rw [hq]
        exact pushEntry_getD_ne st.res st.step j (sec.1, sec.2) (by omega)
    · rw [if_neg hfit]
      obtain ⟨ps, k, sA, sB, sC, sD, sE, sF, sG, sH, sI⟩ :=
        splitLoop_spec μ g sec.1 sec.2 (sec.2.length + 4) st 0 1
          ⟨a, b, c, d, hres, hstep, hb, hc, hd⟩ (by omega)
      have hnames : ∀ e ∈ ps, e.1 = sec.1 ∨ e.1 = sec.1 ++ (" (cont.)").toList := by
        intro e he
        rcases ps with _ | ⟨p0, pt⟩
        · simp at he
        · rcases List.mem_cons.mp he with h | h
          · left
            rw [h, sH p0 (by simp)]
            simp [sliceName]
          · right
            exact sI e (by simpa using h)
      have hsk : (ps.map (fun e => e.2)).flatten = sec.2.take k := by
        rw [sE, List.drop_zero]
      by_cases hbreak : (splitLoop μ g sec.1 sec.2 (sec.2.length + 4) st 0 1).step ≥ 3 ∧
          (splitLoop μ g sec.1 sec.2 (sec.2.length + 4) st 0 1).usedH ≥
            g.quadHeights.getD
              (qOf (splitLoop μ g sec.1 sec.2 (sec.2.length + 4) st 0 1).step) 0
      · rw [if_pos hbreak]
        refine ⟨(ps, k) :: (rest.map fun _ => ([], 0)), ?_, ?_, sB, sC, sF⟩
        · exact List.Forall₂.cons ⟨by omega, hsk, hnames⟩ (secPieces_dropped rest)
        · simp only [List.map_cons, List.flatten_cons]
          rw [flatten_dropped, sA]
          simp
      · rw [if_neg hbreak]
        obtain ⟨pns', hP, hFlat, hInvOut, hStep, hUnch⟩ := ih _ sB
        refine ⟨(ps, k) :: pns', List.Forall₂.cons ⟨by omega, hsk, hnames⟩ hP,
          ?_, hInvOut, le_trans sC hStep, ?_⟩
        · rw [hFlat, sA]
          simp [List.append_assoc]
        · intro j hj
          rw [hUnch j (by omega), sF j hj]

theorem initSt_getD (q : Nat) : ((initSt : PackSt α).res.getD q []) = [] := by
  match q with
  | 0 => rfl
  | 1 => rfl
  | 2 => rfl
  | 3 => rfl
  | n + 4 => exact List.getD_eq_default _ _ (by show 4 ≤ n + 4; omega)

theorem inv_initSt : Inv (initSt : PackSt α) :=
  ⟨[], [], [], [], rfl, Nat.zero_le 3, fun _ => rfl, fun _ => rfl, fun _ => rfl⟩

/-- Item-count bookkeeping over the piece relation: the flattened item count
equals the sum of the per-section emitted counts. -/
theorem secPieces_flatlen (secs : List Entry) (pns : List (List Entry × Nat))
    (h : List.Forall₂ SecPieces secs pns) :
    ((((pns.map (fun pn => pn.1)).flatten).map (fun e => e.2)).flatten).length =
      (pns.map (fun pn => pn.2)).sum := by
  induction h with
  | nil => simp
  | cons hsp hrest ih =>
    rename_i sec pn secs' pns'
    obtain ⟨hle, hitems, _⟩ := hsp
    simp only [List.map_cons, List.flatten_cons, List.map_append,
      List.flatten_append, List.length_append, List.sum_cons]
    rw [ih, hitems, List.length_take]
    omega

theorem secPieces_sum_le (secs : List Entry) (pns : List (List Entry × Nat))
    (h : List.Forall₂ SecPieces secs pns) :
    (pns.map (fun pn => pn.2)).sum ≤ (secs.map (fun s => s.2.length)).sum := by
  induction h with
  | nil => simp
  | cons hsp hrest ih =>
    obtain ⟨hle, _, _⟩ := hsp
    simp only [List.map_cons, List.sum_cons]
    omega

theorem secPieces_sum_iff (secs : List Entry) (pns : List (List Entry × Nat))
    (h : List.Forall₂ SecPieces secs pns) :
    ((pns.map (fun pn => pn.2)).sum = (secs.map (fun s => s.2.length)).sum ↔
      pns.map (fun pn => pn.2) = secs.map (fun s => s.2.length)) := by
  induction h with
  | nil => simp
  | cons hsp hrest ih =>
    rename_i sec pn secs' pns'
    obtain ⟨hle, _, _⟩ := hsp
    have hsum := secPieces_sum_le secs' pns' hrest
    simp only [List.map_cons, List.sum_cons, List.cons.injEq]
    constructor
    · intro heq
      have h1 : pn.2 = sec.2.length := by omega
      have h2 : (pns'.map (fun pn => pn.2)).sum =
          (secs'.map (fun s => s.2.length)).sum := by omega
      exact ⟨h1, ih.mp h2⟩
    · intro ⟨h1, h2⟩
      rw [h1, ih.mpr h2]

/-- C2: content preservation of the Packer.  For every measure function and
geometry, the four quadrants carry, aligned with the input sections in
visiting order, consecutive blocks of pieces: each block's items concatenate
to a prefix (`take pn.2`) of its section's items — hence original item
order, contiguity in visiting order and no duplication — each piece is
named by the section name or its continuation label, and the total emitted
item count equals the original total exactly when no section was truncated
(capacity not exceeded); otherwise the output is a (prefix-structured)
subset. -/
theorem c2_content_preservation (μ : Measure α) (g : Geom α)
    (sections : List Entry) :
    ∃ pns : List (List Entry × Nat),
      List.Forall₂ SecPieces sections pns ∧
      (flowIntoQuadrants μ g sections).flatten =
        (pns.map (fun pn => pn.1)).flatten ∧
      ((flatItems (flowIntoQuadrants μ g sections)).length =
          ((sections.map (fun s => s.2.length)).sum) ↔
        pns.map (fun pn => pn.2) = sections.map (fun s => s.2.length)) := by
  obtain ⟨pns, hP, hFlat, _, _, _⟩ := packLoop_spec μ g sections initSt inv_initSt
  refine ⟨pns, hP, ?_, ?_⟩
  · simpa [flowIntoQuadrants] using hFlat
  · have hflat2 : flatItems (flowIntoQuadrants μ g sections) =
        (((pns.map (fun pn => pn.1)).flatten).map (fun e => e.2)).flatten := by
      unfold flatItems
      rw [show (flowIntoQuadrants μ g sections).flatten =
        (pns.map (fun pn => pn.1)).flatten by simpa [flowIntoQuadrants] using hFlat]
    rw [hflat2, secPieces_flatlen sections pns hP]
    exact secPieces_sum_iff sections pns hP

/-- C1: the split machinery of the Packer.  Part one: under the monotone
measure assumption (height non-decreasing in item count for a fixed name),
the binary search as called by the split loop returns the largest prefix
size fitting `measure + gap ≤ currH - usedH - epsilon`, together with its
re-measured height, and `0` exactly when not even one item fits.  Part two:
packing a single section, the first emitted piece keeps the original section
name, every later piece carries the `" (cont.)"` suffix, each quadrant holds
at most one piece (the remainder is always carried to a following quadrant
in visiting order), and the emitted items form a prefix of the section's
items. -/
theorem c1_split_binary_search :
    (∀ (μ : Measure α) (nm : Str) (items : List Str) (start : Nat)
        (gapQ currH usedH : α),
      (∀ n m : Nat, n ≤ m →
          μ nm ((items.drop start).take n) ≤ μ nm ((items.drop start).take m)) →
      ((binSearch μ nm items start gapQ currH usedH
          (items.length - start + 1) 1 (items.length - start) (0, 0)).1 = 0 →
        ∀ n, 1 ≤ n → n ≤ items.length - start →
          ¬ fitsSlice μ nm items start gapQ currH usedH n) ∧
      ((binSearch μ nm items start gapQ currH usedH
          (items.length - start + 1) 1 (items.length - start) (0, 0)).1 ≠ 0 →
        1 ≤ (binSearch μ nm items start gapQ currH usedH
            (items.length - start + 1) 1 (items.length - start) (0, 0)).1 ∧
        (binSearch μ nm items start gapQ currH usedH
            (items.length - start + 1) 1 (items.length - start) (0, 0)).1 ≤
          items.length - start ∧
        fitsSlice μ nm items start gapQ currH usedH
          (binSearch μ nm items start gapQ currH usedH
            (items.length - start + 1) 1 (items.length - start) (0, 0)).1 ∧
        (binSearch μ nm items start gapQ currH usedH
            (items.length - start + 1) 1 (items.length - start) (0, 0)).2 =
          μ nm ((items.drop start).take
            (binSearch μ nm items start gapQ currH usedH
              (items.length - start + 1) 1 (items.length - start) (0, 0)).1) ∧
        ∀ n, n ≤ items.length - start →
          fitsSlice μ nm items start gapQ currH usedH n →
          n ≤ (binSearch μ nm items start gapQ currH usedH
            (items.length - start + 1) 1 (items.length - start) (0, 0)).1)) ∧
    (∀ (μ : Measure α) (g : Geom α) (name : Str) (items : List Str),
      (∀ q, ((flowIntoQuadrants μ g [(name, items)]).getD q []).length ≤ 1) ∧
      (∀ e, (flowIntoQuadrants μ g [(name, items)]).flatten.head? = some e →
        e.1 = name) ∧
      (∀ e ∈ (flowIntoQuadrants μ g [(name, items)]).flatten.tail,
        e.1 = name ++ (" (cont.)").toList) ∧
      (∃ k, k ≤ items.length ∧
        ((flowIntoQuadrants μ g [(name, items)]).flatten.map (fun e => e.2)).flatten =
          items.take k)) := by
  constructor
  · intro μ nm items start gapQ currH usedH hmono
    have hdc : ∀ n m : Nat, n ≤ m →
        fitsSlice μ nm items start gapQ currH usedH m →
        fitsSlice μ nm items start gapQ currH usedH n := by
      intro n m hnm hfm
      unfold fitsSlice at *
      calc μ nm ((items.drop start).take n) + gapQ
          ≤ μ nm ((items.drop start).take m) + gapQ :=
            add_le_add_right (hmono n m hnm) gapQ
        _ ≤ currH - usedH - 1 := hfm
    have h := binSearch_max μ nm items start gapQ currH usedH hdc
      (items.length - start) (items.length - start + 1) 1 (items.length - start)
      (0, 0) (by omega) (by omega) (le_refl _) (by simp)
      (Or.inl rfl) (fun n h1 h2 h3 => Or.inr ⟨h1, h2⟩)
    obtain ⟨hinv, hmax⟩ := h
    constructor
    · intro hzero n h1 h2 hfits
      have := hmax n h1 h2 hfits
      omega
    · intro hnz
      rcases hinv with h0 | ⟨h1, h2, h3, h4⟩
      · exact absurd h0 hnz
      · exact ⟨h1, h2, h3, h4, fun n hn hfits => by
          rcases Nat.eq_zero_or_pos n with h | h
          · omega
          · exact hmax n h hn hfits⟩
  · intro μ g name items
    have hkey : flowIntoQuadrants μ g [(name, items)] =
        (if μ name items + (if (initSt : PackSt α).cnt > 0 then g.sectionGapPx else 0) ≤
            g.quadHeights.getD (qOf (initSt : PackSt α).step) 0 - (initSt : PackSt α).usedH - 1 -
              (if qOf (initSt : PackSt α).step = 0 ∧ (initSt : PackSt α).cnt = 0 then g.titlePx else 0) then
          (pushEntry (initSt : PackSt α).res (qOf (initSt : PackSt α).step) (name, items) : List (List Entry))
        else
          (splitLoop μ g name items (items.length + 4) initSt 0 1).res) := by
      unfold flowIntoQuadrants
      rw [packLoop_cons]
      dsimp only
      by_cases hc : μ name items + (if (initSt : PackSt α).cnt > 0 then g.sectionGapPx else 0) ≤
          g.quadHeights.getD (qOf (initSt : PackSt α).step) 0 - (initSt : PackSt α).usedH - 1 -
            (if qOf (initSt : PackSt α).step = 0 ∧ (initSt : PackSt α).cnt = 0 then g.titlePx else 0)
      · rw [if_pos hc, if_pos hc]
        rfl
      · rw [if_neg hc, if_neg hc]
        by_cases hb : (splitLoop μ g name items (items.length + 4) initSt 0 1).step ≥ 3 ∧
            (splitLoop μ g name items (items.length + 4) initSt 0 1).usedH ≥
              g.quadHeights.getD
                (qOf (splitLoop μ g name items (items.length + 4) initSt 0 1).step) 0
        · rw [if_pos hb]
        · rw [if_neg hb]
          rfl
    by_cases hfit : μ name items + (if (initSt : PackSt α).cnt > 0 then g.sectionGapPx else 0) ≤
        g.quadHeights.getD (qOf (initSt : PackSt α).step) 0 - (initSt : PackSt α).usedH - 1 -
          (if qOf (initSt : PackSt α).step = 0 ∧ (initSt : PackSt α).cnt = 0 then g.titlePx else 0)
    · rw [hkey, if_pos hfit]
      have hpush : (pushEntry (initSt : PackSt α).res (qOf (initSt : PackSt α).step)
          (name, items) : List (List Entry)) = [[(name, items)], [], [], []] := rfl
      rw [hpush]
      refine ⟨?_, ?_, ?_, items.length, le_refl _, ?_⟩
      · intro q
        match q with
        | 0 => simp
        | 1 => simp
        | 2 => simp
        | 3 => simp
        | n + 4 => rw [List.getD_eq_default _ _ (by show 4 ≤ n + 4; omega)]; simp
      · intro e he
        simp only [List.flatten, List.append_nil, List.head?_cons,
          Option.some.injEq] at he
        rw [← he]
      · intro e he
        simp [List.flatten] at he
      · simp [List.flatten]
    · rw [hkey, if_neg hfit]
      obtain ⟨ps, k, sA, _, _, sD, sE, _, sG, sH, sI⟩ :=
        splitLoop_spec μ g name items (items.length + 4) initSt 0 1
          inv_initSt (by simp [initSt])
      have hflat : (splitLoop μ g name items (items.length + 4) initSt 0 1).res.flatten
          = ps := by
        rw [sA]; rfl
      refine ⟨?_, ?_, ?_, k, by omega, ?_⟩
      · intro q
        have := sG q
        rw [initSt_getD q] at this
        simpa using this
      · intro e he
        rw [hflat] at he
        have := sH e he
        rw [this]
        simp [sliceName]
      · intro e he
        rw [hflat] at he
        exact sI e he
      · rw [hflat, sE, List.drop_zero]

/-- C1 witness: the binary-search part of `c1_split_binary_search` applied
to the unit-height measure (each item one pixel high) with five items and a
capacity that admits exactly three of them. -/
theorem c1_witness :
    3 ≤ (binSearch unitMeasure (("S").toList) c1Items 0 0 (9 : ℤ) 5
      (c1Items.length - 0 + 1) 1 (c1Items.length - 0) (0, 0)).1 := by
  have hmono : ∀ n m : Nat, n ≤ m →
      unitMeasure (("S").toList) ((c1Items.drop 0).take n) ≤
        unitMeasure (("S").toList) ((c1Items.drop 0).take m) := by
    intro n m hnm
    unfold unitMeasure
    exact Nat.cast_le.mpr (by simp only [List.length_take]; omega)
  have h := c1_split_binary_search.1 unitMeasure (("S").toList) c1Items 0 0
    (9 : ℤ) 5 hmono
  by_cases hz : (binSearch unitMeasure (("S").toList) c1Items 0 0 (9 : ℤ) 5
      (c1Items.length - 0 + 1) 1 (c1Items.length - 0) (0, 0)).1 = 0
  · exact absurd
      (by decide : fitsSlice unitMeasure (("S").toList) c1Items 0 0 (9 : ℤ) 5 1)
      (h.1 hz 1 (by decide) (by decide))
  · exact (h.2 hz).2.2.2.2 3 (by decide) (by decide)

/-- C4 counterexample: section `A`'s single item fits in no quadrant, so the
fourth quadrant cannot take any more of the current content — yet the pass
does not stop: the later section `B` is still placed (into the fourth
quadrant), and `A` is what gets dropped.  The claim's "no section or item
occurring after that point is placed into any quadrant; all remaining
sections and items are silently dropped" is false on this input. -/
theorem c4_counterexample :
    flowIntoQuadrants c4Measure c4Geom c4Sections =
      [[], [], [], [((("B").toList), [("small").toList])]] ∧
    ((("B").toList, [("small").toList]) : Entry) ∈
      (flowIntoQuadrants c4Measure c4Geom c4Sections).flatten ∧
    (∀ e ∈ (flowIntoQuadrants c4Measure c4Geom c4Sections).flatten,
      e.1 ≠ ("A").toList) := by decide

/-- C4 (amended): when the fourth quadrant cannot fit the remainder of the
current section, that remainder is dropped silently (never an error — the
function is total), but the pass continues with the following sections,
which may still be placed if they fit (shown by the concrete run); in
general the visiting pointer never decreases and quadrants before the
current one are never modified. -/
theorem c4_pass_continues :
    (flowIntoQuadrants c4Measure c4Geom c4Sections =
      [[], [], [], [((("B").toList), [("small").toList])]]) ∧
    (∀ (μ : Measure α) (g : Geom α) (secs : List Entry) (st : PackSt α),
        Inv st →
        st.step ≤ (packLoop μ g secs st).step ∧
        (∀ j, j < st.step →
          (packLoop μ g secs st).res.getD j [] = st.res.getD j [])) := by
  constructor
  · decide
  · intro μ g secs st hInv
    obtain ⟨pns, _, _, _, hStep, hUnch⟩ := packLoop_spec μ g secs st hInv
    exact ⟨hStep, hUnch⟩

/-- C4 witness: a concrete instance of the universal part of
`c4_pass_continues` — packing a further section while on the fourth quadrant
leaves the first quadrant untouched and never moves the pointer back. -/
theorem c4_witness :
    3 ≤ (packLoop c4Measure c4Geom [(("B").toList, [("small").toList])] c4St).step ∧
    (packLoop c4Measure c4Geom [(("B").toList, [("small").toList])] c4St).res.getD 0 [] =
      [((("A").toList), [("big").toList])] := by
  have h := c4_pass_continues.2 c4Measure c4Geom
    [(("B").toList, [("small").toList])] c4St
    ⟨[((("A").toList), [("big").toList])], [], [], [], rfl, by decide,
      fun _ => rfl, fun _ => rfl, fun _ => rfl⟩
  exact ⟨h.1, by rw [h.2 0 (by decide)]; rfl⟩

end PrintList
